import Mathlib

/-
Verification of the SealockDoc core-storage engine against its specification.

The Go sources are shallowly embedded: byte slices become `List Nat`, Go maps
become association lists in insertion order (the list order also stands for
Go's unspecified map-iteration order where the code depends on it), SHA-256 is
an abstract parameter `H : Bytes → String` (collision-freedom is taken as an
explicit injectivity hypothesis where a proof needs it), and fallible Go
functions returning `(T, error)` become `Except String T`.  State mutation is
explicit state passing.
-/

namespace SealockDoc

/-- Byte sequences ([]byte in Go). -/
abbrev Bytes := List Nat

/-- Association-list lookup, the embedding of a Go map read `m[k]`. -/
def lookupK {α : Type} : List (String × α) → String → Option α
  | [], _ => none
  | (k', v) :: t, k => if k' = k then some v else lookupK t k

/-- Association-list write, the embedding of a Go map assignment `m[k] = v`:
replaces the binding when the key is present, otherwise appends it. -/
def setk {α : Type} : List (String × α) → String → α → List (String × α)
  | [], k, v => [(k, v)]
  | (k0, v0) :: t, k, v => if k0 = k then (k, v) :: t else (k0, v0) :: setk t k v

/- ===== model package (part_007): persistent rows ===== -/

/-- model.Block: one block-metadata row.  `hash` carries a `uniqueIndex`
in the GORM schema; `refCount` is a Go `int`, so it is an `Int` here
(the mock repository can in fact drive it negative). -/
structure Block where
  id : Nat
  hash : String
  size : Int
  data : Bytes
  refCount : Int
deriving DecidableEq

/-- model.File: a file row.  `BlockIDs` is stored as a JSON array of hash
strings in Go; JSON (un)marshalling of a string list is the identity up to
encoding, so the field is kept as the list itself. -/
structure File where
  id : Nat
  uuid : String
  name : String
  size : Int
  hash : String
  blockIDs : List String
deriving DecidableEq

/-- model.Node, the entity probed by the instant-upload check. -/
structure Node where
  id : Nat
  name : String
  size : Int
  type : String
  contentHash : Option String
  blockHashes : List String
deriving DecidableEq

/- ===== LocalBlockStore (part_004): content-addressed in-memory store ===== -/

/-- The LocalBlockStore `blocks` map: digest → payload. -/
abbrev Store := List (String × Bytes)

/-- LocalBlockStore.Put: rejects empty payloads, otherwise stores the data
under its digest (the digest function is the parameter `H`). -/
def lbsPut (H : Bytes → String) (s : Store) (data : Bytes) : Except String (String × Store) :=
  if data.isEmpty then .error "empty data"
  else
    let hashHex := H data
    .ok (hashHex, setk s hashHex data)

/-- LocalBlockStore.Get. -/
def lbsGet (s : Store) (hash : String) : Except String Bytes :=
  match lookupK s hash with
  | some d => .ok d
  | none => .error ("block not found: " ++ hash)

/-- LocalBlockStore.Exists: never errors. -/
def lbsExists (s : Store) (hash : String) : Except String Bool :=
  .ok (lookupK s hash).isSome

/- ===== Mock repositories (mock_repositories.go) ===== -/

/-- MockFileRepository `files` map: file hash → file row. -/
abbrev FileRows := List (String × File)

/-- MockBlockRepository `blocks` map: block hash → block row. -/
abbrev BlockRowsM := List (String × Block)

/-- MockFileRepository.CreateFile: `m.files[file.Hash] = file`. -/
def mockCreateFile (files : FileRows) (f : File) : FileRows :=
  setk files f.hash f

/-- MockFileRepository.GetFileByHash: returns the row, or nothing (the Go
code returns `nil, nil` when the hash is absent). -/
def mockGetFileByHash (files : FileRows) (h : String) : Option File :=
  lookupK files h

/-- MockBlockRepository.SaveBlockMetadata: `m.blocks[block.Hash] = block`,
an unconditional overwrite of the whole row. -/
def mockSaveBlockMetadata (rows : BlockRowsM) (b : Block) : BlockRowsM :=
  setk rows b.hash b

/-- MockBlockRepository.IncrementRefCount: adds `delta` when the row exists
and silently does nothing (returning nil) when it does not. -/
def mockIncrementRefCount (rows : BlockRowsM) (h : String) (delta : Int) : BlockRowsM :=
  match lookupK rows h with
  | some b => setk rows h { b with refCount := b.refCount + delta }
  | none => rows

/-- MockBlockRepository.DecrementBlockRefCount: `block.RefCount--` with no
zero test, so the counter can go negative. -/
def mockDecrementBlockRefCount (rows : BlockRowsM) (h : String) : BlockRowsM :=
  match lookupK rows h with
  | some b => setk rows h { b with refCount := b.refCount - 1 }
  | none => rows

/- ===== GORM repositories (part_008 blockRepository and the identical
GormBlockRepository; GormFileRepository) ===== -/

/-- `First(&block, "hash = ?", h)`: the first row matching the hash. -/
def findRow : List Block → String → Option Block
  | [], _ => none
  | r :: t, h => if r.hash = h then some r else findRow t h

/-- Update the first row with the given hash in place (GORM `Save` writes
back the row that `First` fetched, addressed by its primary key). -/
def updateFirstRow : List Block → String → (Block → Block) → List Block
  | [], _, _ => []
  | r :: t, h, f => if r.hash = h then f r :: t else r :: updateFirstRow t h f

/-- blockRepository.SaveBlockMetadata / GormBlockRepository.SaveBlockMetadata:
a plain `Create` (INSERT).  `model.Block.Hash` carries a unique index, so
creating a row whose hash already exists fails with a constraint error. -/
def gormSaveBlockMetadata (rows : List Block) (b : Block) : Except String (List Block) :=
  match findRow rows b.hash with
  | some _ => .error "failed to save block metadata: duplicate key"
  | none => .ok (rows ++ [b])

/-- blockRepository.IncrementRefCount / GormBlockRepository.IncrementRefCount:
load the row (error when absent), add `delta`, save. -/
def gormIncrementRefCount (rows : List Block) (h : String) (delta : Int) :
    Except String (List Block) :=
  match findRow rows h with
  | none => .error ("failed to find block: " ++ h)
  | some _ => .ok (updateFirstRow rows h (fun r => { r with refCount := r.refCount + delta }))

/-- blockRepository.DecrementBlockRefCount / GormBlockRepository
.DecrementBlockRefCount: load the row (error when absent); decrement only
when `RefCount > 0`, i.e. the decrement is clamped at zero. -/
def gormDecrementBlockRefCount (rows : List Block) (h : String) : Except String (List Block) :=
  match findRow rows h with
  | none => .error ("failed to find block: " ++ h)
  | some _ =>
    .ok (updateFirstRow rows h
      (fun r => if r.refCount > 0 then { r with refCount := r.refCount - 1 } else r))

/-- The reference count recorded for a digest, when a row exists. -/
def refCountOf (rows : List Block) (h : String) : Option Int :=
  (findRow rows h).map (fun r => r.refCount)

/-- One call against the GORM block repository, for stating the ref-count
invariant over arbitrary call sequences. -/
inductive RepoOp where
  | save (b : Block)
  | inc (h : String) (delta : Int)
  | dec (h : String)
deriving DecidableEq

/-- Apply one repository call to the rows; a call that returns an error
leaves the database unchanged. -/
def applyGormOp (rows : List Block) : RepoOp → List Block
  | .save b =>
    match gormSaveBlockMetadata rows b with
    | .ok r => r
    | .error _ => rows
  | .inc h delta =>
    match gormIncrementRefCount rows h delta with
    | .ok r => r
    | .error _ => rows
  | .dec h =>
    match gormDecrementBlockRefCount rows h with
    | .ok r => r
    | .error _ => rows

/-- The repository calls the service layer actually issues: rows are created
with a non-negative count and increments carry a non-negative delta (every
call site passes `delta = 1`). -/
def opOK : RepoOp → Prop
  | .save b => 0 ≤ b.refCount
  | .inc _ delta => 0 ≤ delta
  | .dec _ => True

instance : DecidablePred opOK := by
  intro op
  cases op with
  | save b => exact inferInstanceAs (Decidable (0 ≤ b.refCount))
  | inc h delta => exact inferInstanceAs (Decidable (0 ≤ delta))
  | dec h => exact inferInstanceAs (Decidable True)

/- ===== Chunkers (chunker.go) ===== -/

/-- FixedSizeChunker. -/
structure FixedSizeChunker where
  blockSize : Nat
deriving DecidableEq

/-- NewFixedSizeChunker: a non-positive block size falls back to 8 KiB. -/
def NewFixedSizeChunker (blockSize : Int) : FixedSizeChunker :=
  if blockSize ≤ 0 then ⟨8192⟩ else ⟨blockSize.toNat⟩

/-- The successive `data[i : min(i+bs, len)]` slices of the fixed-size
chunking loop, via fuel-counted structural recursion so that the function
evaluates by `rfl`/`decide` (a fuel of `data.length` is enough whenever
`0 < bs`, since each step consumes at least one byte). -/
def fixedSegmentsAux (bs : Nat) (fuel : Nat) (data : Bytes) : List Bytes :=
  match fuel with
  | 0 => []
  | fuel' + 1 =>
    if data.isEmpty then []
    else data.take bs :: fixedSegmentsAux bs fuel' (data.drop bs)

/-- The ordered payload segments the fixed-size chunker cuts. -/
def fixedSegments (bs : Nat) (data : Bytes) : List Bytes :=
  fixedSegmentsAux bs data.length data

/-- FixedSizeChunker.Chunk: one digest per segment (empty input yields the
empty list). -/
def fixedChunk (H : Bytes → String) (c : FixedSizeChunker) (data : Bytes) : List String :=
  if data.isEmpty then [] else (fixedSegments c.blockSize data).map H

/-- CDCChunker. -/
structure CDCChunker where
  minSize : Nat
  avgSize : Nat
  maxSize : Nat
  windowSize : Nat
deriving DecidableEq

/-- NewCDCChunker: each non-positive parameter is replaced by its default
(2048 / 8192 / 65536); if the resulting triple is not strictly increasing,
all three fall back to the defaults. -/
def NewCDCChunker (minS avgS maxS : Int) : CDCChunker :=
  let m1 : Int := if minS ≤ 0 then 2048 else minS
  let a1 : Int := if avgS ≤ 0 then 8192 else avgS
  let x1 : Int := if maxS ≤ 0 then 65536 else maxS
  if m1 ≥ a1 ∨ a1 ≥ x1 then
    { minSize := 2048, avgSize := 8192, maxSize := 65536, windowSize := 64 }
  else
    { minSize := m1.toNat, avgSize := a1.toNat, maxSize := x1.toNat, windowSize := 64 }

/-- CDCChunker.isChunkBoundary: position-modulo boundary test. -/
def isChunkBoundary (c : CDCChunker) (data : Bytes) (pos : Nat) : Bool :=
  if pos < c.minSize ∨ pos > data.length then false
  else (pos - c.minSize) % c.avgSize == 0

/-- The inner scan of CDCChunker.Chunk: advance `chunkEnd` while it is
below `pos + maxSize` and below the input length, stopping early at a
boundary.  The loop runs at most `maxSize - minSize` times, so a fuel of
`maxSize` always lets it reach its natural exit. -/
def scanEnd (c : CDCChunker) (data : Bytes) (pos : Nat) (fuel : Nat) (chunkEnd : Nat) : Nat :=
  match fuel with
  | 0 => chunkEnd
  | fuel' + 1 =>
    if chunkEnd < pos + c.maxSize ∧ chunkEnd < data.length then
      if isChunkBoundary c data chunkEnd then chunkEnd
      else scanEnd c data pos fuel' (chunkEnd + 1)
    else chunkEnd

/-- The end position of the block that starts at `pos`: scan from
`pos + minSize`, then clamp to `pos + maxSize` and to the input length. -/
def nextChunkEnd (c : CDCChunker) (data : Bytes) (pos : Nat) : Nat :=
  let e1 := scanEnd c data pos c.maxSize (pos + c.minSize)
  let e2 := if e1 > pos + c.maxSize then pos + c.maxSize else e1
  if e2 > data.length then data.length else e2

/-- The outer loop of CDCChunker.Chunk, emitting `data[pos : chunkEnd]`
slices.  Fuel `data.length` suffices because every constructed chunker has
`0 < minSize`, which makes each iteration advance `pos`. -/
def cdcSegmentsAux (c : CDCChunker) (data : Bytes) (fuel : Nat) (pos : Nat) : List Bytes :=
  match fuel with
  | 0 => []
  | fuel' + 1 =>
    if pos < data.length then
      let e := nextChunkEnd c data pos
      ((data.drop pos).take (e - pos)) :: cdcSegmentsAux c data fuel' e
    else []

/-- The ordered payload segments CDCChunker.Chunk cuts. -/
def cdcChunkSegments (c : CDCChunker) (data : Bytes) : List Bytes :=
  cdcSegmentsAux c data data.length 0

/-- CDCChunker.Chunk: one digest per emitted segment. -/
def cdcChunk (H : Bytes → String) (c : CDCChunker) (data : Bytes) : List String :=
  if data.isEmpty then [] else (cdcChunkSegments c data).map H

/- ===== FileService (file_service.go), mock wiring as in test/main_test.go:
LocalBlockStore + MockFileRepository + MockBlockRepository ===== -/

/-- calculateFileHash: the placeholder `"hash_<length>"` string the service
uses as a file's content digest. -/
def calculateFileHash (data : Bytes) : String :=
  "hash_" ++ toString data.length

/-- The mutable state the mock-wired FileService touches. -/
structure SysState where
  blockStore : Store
  files : FileRows
  blockRows : BlockRowsM
deriving DecidableEq

/-- The per-chunk loop of FileService.UploadFile: the loop recomputes chunk
`i` as `data[currentPos : min(currentPos+blockSize, len)]` and runs once per
chunker-reported chunk, which is exactly one step per non-empty remainder of
`data`; each step stores the chunk and increments its ref count. -/
def uploadLoopAux (H : Bytes → String) (bs : Nat) (fuel : Nat) (st : SysState) (rest : Bytes) :
    Except String (SysState × List String) :=
  match fuel with
  | 0 => .ok (st, [])
  | fuel' + 1 =>
    if rest.isEmpty then .ok (st, [])
    else
      match lbsPut H st.blockStore (rest.take bs) with
      | .error e => .error ("failed to store block: " ++ e)
      | .ok (h, store') =>
        let st1 : SysState :=
          { st with blockStore := store', blockRows := mockIncrementRefCount st.blockRows h 1 }
        match uploadLoopAux H bs fuel' st1 (rest.drop bs) with
        | .error e => .error e
        | .ok (st2, hs) => .ok (st2, h :: hs)

/-- FileService.UploadFile: reject empty input, store every chunk (ref count
incremented per chunk), then create the file row whose hash is
`calculateFileHash data` and whose BlockIDs list the chunk digests in order.
The asynchronous auto-snapshot is ignored (it touches no state read here). -/
def UploadFile (H : Bytes → String) (c : FixedSizeChunker) (st : SysState)
    (fileName : String) (data : Bytes) : Except String (File × SysState) :=
  if data.isEmpty then .error "empty file"
  else
    match uploadLoopAux H c.blockSize data.length st data with
    | .error e => .error e
    | .ok (st1, blockHashes) =>
      let file : File :=
        { id := 0, uuid := "", name := fileName, size := (data.length : Int),
          hash := calculateFileHash data, blockIDs := blockHashes }
      .ok (file, { st1 with files := mockCreateFile st1.files file })

/-- The block-fetching loop of FileService.DownloadFile: read every block in
order and concatenate. -/
def getBlocksData (s : Store) (hs : List String) : Except String Bytes :=
  match hs with
  | [] => .ok []
  | h :: t =>
    match lbsGet s h with
    | .error e => .error ("failed to get block " ++ h ++ ": " ++ e)
    | .ok d =>
      match getBlocksData s t with
      | .error e => .error e
      | .ok r => .ok (d ++ r)

/-- FileService.DownloadFile: look the file row up by hash, then read and
concatenate its blocks.  (When the mock repository yields no row it returns
`nil, nil` and the service dereferences the nil file; that crash is modelled
as an error value.) -/
def DownloadFile (st : SysState) (fileHash : String) : Except String Bytes :=
  match mockGetFileByHash st.files fileHash with
  | none => .error "failed to get file"
  | some f => getBlocksData st.blockStore f.blockIDs

/- ===== FileService (file_service.go) over the GORM repositories, for the
delete path ===== -/

/-- GormFileRepository.GetFileByHash: first row with the hash. -/
def findFile : List File → String → Option File
  | [], _ => none
  | f :: t, h => if f.hash = h then some f else findFile t h

/-- The per-block loop of FileService.DeleteFile: decrement each block hash
in order; a decrement error is only logged and the loop continues. -/
def decBlocksLoop (rows : List Block) : List String → List Block
  | [] => rows
  | h :: t =>
    let rows' :=
      match gormDecrementBlockRefCount rows h with
      | .ok r => r
      | .error _ => rows
    decBlocksLoop rows' t

/-- The mutable state the GORM-wired FileService touches. -/
structure GormState where
  blockStore : Store
  files : List File
  blockRows : List Block
deriving DecidableEq

/-- FileService.DeleteFile: load the file by hash, decrement the ref count
of every entry of its block list (with multiplicity, continuing past
per-block errors), then delete the file row by primary key.  The block
store is never touched. -/
def DeleteFile (st : GormState) (fileHash : String) : Except String GormState :=
  match findFile st.files fileHash with
  | none => .error "failed to get file"
  | some f =>
    .ok { st with
          blockRows := decBlocksLoop st.blockRows f.blockIDs,
          files := st.files.filter (fun g => g.id ≠ f.id) }

/-- Multiplicity of a hash in a block list. -/
def countH : List String → String → Nat
  | [], _ => 0
  | x :: t, h => (if x = h then 1 else 0) + countH t h

/- ===== Upload session coordinator (upload_service.go, upload_handler.go) ===== -/

/-- The Redis hash `upload:<id>:chunks` holding one field `chunk:<i>` per
received chunk, as a field/value list in (unspecified) iteration order. -/
abbrev ChunkHash := List (String × String)

/-- FileService.RecordChunkReceived: `HSET upload:<id>:chunks chunk:<i>
"received"` (the total chunk count is NOT stored anywhere). -/
def RecordChunkReceived (sessionChunks : ChunkHash) (chunkIndex : Nat) : ChunkHash :=
  setk sessionChunks ("chunk:" ++ toString chunkIndex) "received"

/-- Decimal parsing of a character run, for the `%d` verb of Sscanf:
`none` when no digits were read or a non-digit appears. -/
def decimalDigits : List Char → Option Nat → Option Nat
  | [], acc => acc
  | c :: t, acc =>
    if c.isDigit then
      match acc with
      | none => decimalDigits t (some (c.toNat - 48))
      | some n => decimalDigits t (some (n * 10 + (c.toNat - 48)))
    else none

/-- `fmt.Sscanf(field, "chunk:%d", &n)`: read the integer after the
six-character prefix "chunk:"; on a parse failure the scanned variable
keeps its zero value. -/
def parseChunkIndex (field : String) : Nat :=
  (decimalDigits (field.data.drop 6) none).getD 0

/-- FileService.GetMissingChunks: an empty hash yields no missing chunks;
otherwise the code takes the FIRST field of the received-chunk map in
iteration order, parses the chunk index out of it and uses that index as
the total chunk count, then lists the indices below it with no field. -/
def GetMissingChunks (received : ChunkHash) : List Nat :=
  match received with
  | [] => []
  | (field, _) :: _ =>
    let totalChunks := parseChunkIndex field
    (List.range totalChunks).filter
      (fun i => (lookupK received ("chunk:" ++ toString i)).isNone)

/-- The specified missing-chunk computation: `{0..total-1} \ received`. -/
def specMissingChunks (totalChunks : Nat) (receivedIdx : List Nat) : List Nat :=
  (List.range totalChunks).filter (fun i => decide (i ∉ receivedIdx))

/-- FileService.GetFileNodeByContentHash: the body is `return nil, nil`
regardless of the state and the hash. -/
def GetFileNodeByContentHash (_st : SysState) (_hash : String) : Option Node :=
  none

/-- The response of GET /upload/check. -/
inductive CheckResponse where
  | badRequest (msg : String)
  | found (fileId : Nat) (name : String) (size : Int) (hash : Option String)
  | notFound (uploadId : String)
deriving DecidableEq

/-- UploadHandler.CheckFileHandler: 400 without a fileHash; otherwise probe
GetFileNodeByContentHash and answer exists=true with the node's identity,
or exists=false with a freshly minted upload id. -/
def CheckFileHandler (st : SysState) (fileHash : String) (freshUploadId : String) :
    CheckResponse :=
  if fileHash = "" then .badRequest "fileHash is required"
  else
    match GetFileNodeByContentHash st fileHash with
    | some node => .found node.id node.name node.size node.contentHash
    | none => .notFound freshUploadId

/- ===== Cache layer (part_000 cachedBlockStore, redis_cache.go
RedisBlockCache) ===== -/

/-- The Redis client as seen by the cache layers: its key space plus a
health flag (an unreachable or failing Redis makes every command error). -/
structure RedisState where
  entries : List (String × Bytes)
  healthy : Bool
deriving DecidableEq

/-- `EXISTS key`: the number of existing keys among those asked (0 or 1
here), or an error when Redis is unreachable. -/
def redisExists (rs : RedisState) (key : String) : Except String Nat :=
  if rs.healthy then .ok (if (lookupK rs.entries key).isSome then 1 else 0)
  else .error "redis: connection refused"

/-- cachedBlockStore.Exists (part_000): a cache error is returned as
`(false, err)` at once; a cache hit is a positive answer; only a clean
cache miss falls through to the inner store. -/
def cachedBlockStoreExists (rs : RedisState) (inner : Store) (hash : String) :
    Except String Bool :=
  match redisExists rs ("block:" ++ hash) with
  | .error e => .error e
  | .ok n => if n > 0 then .ok true else lbsExists inner hash

/-- RedisBlockCache.Exists (redis_cache.go): a cache hit is a positive
answer; everything else — a clean miss or a cache error — falls through
to the inner store. -/
def RedisBlockCacheExists (rs : RedisState) (inner : Store) (hash : String) :
    Except String Bool :=
  match redisExists rs ("block:" ++ hash) with
  | .ok n => if n > 0 then .ok true else lbsExists inner hash
  | .error _ => lbsExists inner hash

/- ===== Helper lemmas about the map embedding ===== -/

theorem lookupK_cons {α : Type} (k0 : String) (v0 : α) (t : List (String × α)) (k : String) :
    lookupK ((k0, v0) :: t) k = if k0 = k then some v0 else lookupK t k := rfl

theorem lookupK_setk_self {α : Type} (l : List (String × α)) (k : String) (v : α) :
    lookupK (setk l k v) k = some v := by
  induction l with
  | nil => simp [setk, lookupK]
  | cons p t ih =>
    obtain ⟨k0, v0⟩ := p
    by_cases hk : k0 = k
    · simp [setk, hk, lookupK]
    · simp [setk, hk, lookupK, ih]

theorem lookupK_setk_ne {α : Type} (l : List (String × α)) (k k' : String) (v : α)
    (hne : k' ≠ k) :
    lookupK (setk l k v) k' = lookupK l k' := by
  induction l with
  | nil => simp [setk, lookupK, Ne.symm hne]
  | cons p t ih =>
    obtain ⟨k0, v0⟩ := p
    by_cases hk : k0 = k
    · subst hk
      simp [setk, lookupK, Ne.symm hne]
    · simp [setk, hk, lookupK, ih]

/- ===== Helper lemmas about the GORM block repository ===== -/

theorem findRow_updateFirstRow_self (rows : List Block) (h : String) (f : Block → Block)
    (hf : ∀ r, (f r).hash = r.hash) :
    findRow (updateFirstRow rows h f) h = (findRow rows h).map f := by
  induction rows with
  | nil => rfl
  | cons r t ih =>
    by_cases hr : r.hash = h
    · simp [updateFirstRow, findRow, hr, hf]
    · simp [updateFirstRow, findRow, hr, ih]

theorem findRow_updateFirstRow_ne (rows : List Block) (h h' : String) (f : Block → Block)
    (hf : ∀ r, (f r).hash = r.hash) (hne : h' ≠ h) :
    findRow (updateFirstRow rows h f) h' = findRow rows h' := by
  induction rows with
  | nil => rfl
  | cons r t ih =>
    by_cases hr : r.hash = h
    · have hfr : ¬ (f r).hash = h' := by rw [hf, hr]; exact Ne.symm hne
      have hrne : ¬ r.hash = h' := by rw [hr]; exact Ne.symm hne
      simp [updateFirstRow, findRow, hr, hfr, hrne, Ne.symm hne]
    · simp only [updateFirstRow, if_neg hr, findRow, ih]

theorem updateFirstRow_eq_self (rows : List Block) (h : String) (f : Block → Block)
    (hf : ∀ r, findRow rows h = some r → f r = r) :
    updateFirstRow rows h f = rows := by
  induction rows with
  | nil => rfl
  | cons r t ih =>
    by_cases hr : r.hash = h
    · have : f r = r := hf r (by simp [findRow, hr])
      simp [updateFirstRow, hr, this]
    · have ht : ∀ x, findRow t h = some x → f x = x := by
        intro x hx
        exact hf x (by simpa [findRow, hr] using hx)
      simp [updateFirstRow, hr, ih ht]

theorem mem_updateFirstRow {rows : List Block} {h : String} {f : Block → Block} {x : Block}
    (hx : x ∈ updateFirstRow rows h f) : x ∈ rows ∨ ∃ r, r ∈ rows ∧ x = f r := by
  induction rows with
  | nil => simp [updateFirstRow] at hx
  | cons r t ih =>
    by_cases hr : r.hash = h
    · simp only [updateFirstRow, if_pos hr, List.mem_cons] at hx
      rcases hx with hx | hx
      · exact Or.inr ⟨r, List.mem_cons_self r t, hx⟩
      · exact Or.inl (List.mem_cons_of_mem r hx)
    · simp only [updateFirstRow, if_neg hr, List.mem_cons] at hx
      rcases hx with hx | hx
      · exact Or.inl (by simp [hx])
      · rcases ih hx with hmem | ⟨r', hr', hx'⟩
        · exact Or.inl (List.mem_cons_of_mem r hmem)
        · exact Or.inr ⟨r', List.mem_cons_of_mem r hr', hx'⟩

theorem applyGormOp_nonneg (rows : List Block) (op : RepoOp)
    (hrows : ∀ r ∈ rows, 0 ≤ r.refCount) (hop : opOK op) :
    ∀ r ∈ applyGormOp rows op, 0 ≤ r.refCount := by
  intro r hr
  cases op with
  | save b =>
    cases hfind : findRow rows b.hash with
    | some r0 =>
      simp only [applyGormOp, gormSaveBlockMetadata, hfind] at hr
      exact hrows r hr
    | none =>
      simp only [applyGormOp, gormSaveBlockMetadata, hfind] at hr
      rcases List.mem_append.mp hr with hmem | hmem
      · exact hrows r hmem
      · rw [List.mem_singleton] at hmem
        subst hmem
        exact hop
  | inc h delta =>
    cases hfind : findRow rows h with
    | none =>
      simp only [applyGormOp, gormIncrementRefCount, hfind] at hr
      exact hrows r hr
    | some r0 =>
      simp only [applyGormOp, gormIncrementRefCount, hfind] at hr
      rcases mem_updateFirstRow hr with hmem | ⟨r', hr', hx⟩
      · exact hrows r hmem
      · subst hx
        show (0 : Int) ≤ r'.refCount + delta
        exact add_nonneg (hrows r' hr') hop
  | dec h =>
    cases hfind : findRow rows h with
    | none =>
      simp only [applyGormOp, gormDecrementBlockRefCount, hfind] at hr
      exact hrows r hr
    | some r0 =>
      simp only [applyGormOp, gormDecrementBlockRefCount, hfind] at hr
      rcases mem_updateFirstRow hr with hmem | ⟨r', hr', hx⟩
      · exact hrows r hmem
      · subst hx
        have h0 := hrows r' hr'
        by_cases hpos : r'.refCount > 0
        · rw [if_pos hpos]
          show (0 : Int) ≤ r'.refCount - 1
          omega
        · rw [if_neg hpos]
          exact h0

theorem foldl_applyGormOp_nonneg (ops : List RepoOp) (rows : List Block)
    (hrows : ∀ r ∈ rows, 0 ≤ r.refCount) (hops : ∀ op ∈ ops, opOK op) :
    ∀ r ∈ ops.foldl applyGormOp rows, 0 ≤ r.refCount := by
  induction ops generalizing rows with
  | nil => simpa using hrows
  | cons op t ih =>
    simp only [List.foldl_cons]
    exact ih (applyGormOp rows op)
      (applyGormOp_nonneg rows op hrows (hops op (List.mem_cons_self op t)))
      (fun o ho => hops o (List.mem_cons_of_mem op ho))

theorem gormDecrement_clamped_of_zero (rows : List Block) (h : String) (r : Block)
    (hfind : findRow rows h = some r) (hzero : r.refCount = 0) :
    gormDecrementBlockRefCount rows h = .ok rows := by
  unfold gormDecrementBlockRefCount
  rw [hfind]
  simp only
  congr 1
  apply updateFirstRow_eq_self
  intro r' hr'
  rw [hfind] at hr'
  injection hr' with he
  subst he
  simp [hzero]

/-- C7 (corrected): for the GORM block repositories (part_008 blockRepository
and GormBlockRepository), ref_count stays non-negative across every sequence
of save/increment/decrement calls whose saves carry non-negative counts and
whose increments carry non-negative deltas (every call site passes delta 1),
and decrementing a block whose ref_count is already 0 leaves the rows
unchanged — the decrement is clamped.  (MockBlockRepository is the exception
the counterexample exhibits.) -/
theorem gorm_refcount_invariant (ops : List RepoOp) (rows : List Block)
    (hrows : ∀ x ∈ rows, 0 ≤ x.refCount) (hops : ∀ op ∈ ops, opOK op) :
    (∀ x ∈ ops.foldl applyGormOp rows, 0 ≤ x.refCount) ∧
    (∀ h r, findRow rows h = some r → r.refCount = 0 →
      gormDecrementBlockRefCount rows h = .ok rows) :=
  ⟨foldl_applyGormOp_nonneg ops rows hrows hops,
   fun h r hfind hzero => gormDecrement_clamped_of_zero rows h r hfind hzero⟩

/-- Witness for C7: a concrete block at ref_count 0 run through a concrete
save/increment/decrement sequence. -/
theorem gorm_refcount_invariant_witness :
    (∀ x ∈ ([RepoOp.save ⟨2, "b", 1, [2], 0⟩, RepoOp.inc "a" 1, RepoOp.dec "a",
        RepoOp.dec "a"].foldl applyGormOp [⟨1, "a", 1, [1], 0⟩]), 0 ≤ x.refCount) ∧
    (∀ h r, findRow [⟨1, "a", 1, [1], 0⟩] h = some r → r.refCount = 0 →
      gormDecrementBlockRefCount [⟨1, "a", 1, [1], 0⟩] h = .ok [⟨1, "a", 1, [1], 0⟩]) :=
  gorm_refcount_invariant _ _ (by decide) (by decide)

/-- C7 counterexample: MockBlockRepository.DecrementBlockRefCount has no
clamp — decrementing a block whose ref_count is already 0 drives it to -1,
violating the non-negativity claimed for every repository operation. -/
theorem mockDecrement_goes_negative :
    (lookupK (mockDecrementBlockRefCount [("h", ⟨1, "h", 1, [1], 0⟩)] "h") "h").map
        (fun b => b.refCount) = some (-1) ∧
    ¬ (0 : Int) ≤ -1 := by decide

/-- C5 counterexample: writing block metadata for digest "h", which already
has a row, returns an error instead of succeeding and adding to the
existing row's ref_count. -/
theorem saveBlockMetadata_duplicate_errors :
    gormSaveBlockMetadata [⟨1, "h", 1, [1], 3⟩] ⟨2, "h", 1, [1], 2⟩ =
      .error "failed to save block metadata: duplicate key" := rfl

/-- C5 (corrected): SaveBlockMetadata is a plain insert against the unique
hash index — a duplicate digest errors, a fresh digest appends the row —
and adding to an existing row's ref_count is instead what IncrementRefCount
does. -/
theorem saveBlockMetadata_plain_insert (rows : List Block) (b : Block) :
    ((findRow rows b.hash).isSome →
      gormSaveBlockMetadata rows b = .error "failed to save block metadata: duplicate key") ∧
    (findRow rows b.hash = none → gormSaveBlockMetadata rows b = .ok (rows ++ [b])) ∧
    (∀ h delta r, findRow rows h = some r →
      ∃ rows2, gormIncrementRefCount rows h delta = .ok rows2 ∧
        refCountOf rows2 h = some (r.refCount + delta)) := by
  refine ⟨?_, ?_, ?_⟩
  · intro hsome
    unfold gormSaveBlockMetadata
    cases hfind : findRow rows b.hash with
    | some r => rfl
    | none => rw [hfind] at hsome; simp at hsome
  · intro hnone
    unfold gormSaveBlockMetadata
    rw [hnone]
  · intro h delta r hfind
    refine ⟨updateFirstRow rows h (fun x => { x with refCount := x.refCount + delta }), ?_, ?_⟩
    · unfold gormIncrementRefCount
      rw [hfind]
    · unfold refCountOf
      rw [findRow_updateFirstRow_self rows h
            (fun x => { x with refCount := x.refCount + delta }) (fun x => rfl), hfind]
      rfl

/-- Witness for C5: concrete duplicate-insert error, fresh-insert success,
and ref-count addition through IncrementRefCount. -/
theorem saveBlockMetadata_plain_insert_witness :
    gormSaveBlockMetadata [⟨1, "h", 1, [1], 3⟩] ⟨2, "h", 1, [1], 2⟩ =
        .error "failed to save block metadata: duplicate key" ∧
    gormSaveBlockMetadata [⟨1, "h", 1, [1], 3⟩] ⟨2, "g", 1, [2], 0⟩ =
        .ok [⟨1, "h", 1, [1], 3⟩, ⟨2, "g", 1, [2], 0⟩] ∧
    ∃ rows2, gormIncrementRefCount [⟨1, "h", 1, [1], 3⟩] "h" 1 = .ok rows2 ∧
      refCountOf rows2 "h" = some 4 :=
  ⟨(saveBlockMetadata_plain_insert [⟨1, "h", 1, [1], 3⟩] ⟨2, "h", 1, [1], 2⟩).1 (by decide),
   (saveBlockMetadata_plain_insert [⟨1, "h", 1, [1], 3⟩] ⟨2, "g", 1, [2], 0⟩).2.1 (by decide),
   by
     obtain ⟨rows2, h1, h2⟩ :=
       (saveBlockMetadata_plain_insert [⟨1, "h", 1, [1], 3⟩] ⟨2, "h", 1, [1], 2⟩).2.2 "h" 1
         ⟨1, "h", 1, [1], 3⟩ (by decide)
     exact ⟨rows2, h1, by rw [h2]; norm_num⟩⟩

/-- C6 counterexample: with Redis unreachable, cachedBlockStore.Exists
(part_000) returns the cache error instead of the inner store's answer,
although the block exists in the inner store. -/
theorem cachedExists_error_not_fallthrough :
    cachedBlockStoreExists ⟨[], false⟩ [("h", [1])] "h" =
        .error "redis: connection refused" ∧
    lbsExists [("h", [1])] "h" = .ok true := ⟨rfl, rfl⟩

/-- C6 (corrected): a clean cache miss falls through to the inner store in
both cache layers, and RedisBlockCache.Exists also falls through on a cache
failure; but cachedBlockStore.Exists returns a cache failure as an error
without consulting the inner store. -/
theorem exists_fallthrough_amended (rs : RedisState) (inner : Store) (h : String) :
    (rs.healthy → lookupK rs.entries ("block:" ++ h) = none →
      cachedBlockStoreExists rs inner h = lbsExists inner h) ∧
    (rs.healthy = false →
      cachedBlockStoreExists rs inner h = .error "redis: connection refused") ∧
    (rs.healthy = false ∨ lookupK rs.entries ("block:" ++ h) = none →
      RedisBlockCacheExists rs inner h = lbsExists inner h) := by
  refine ⟨?_, ?_, ?_⟩
  · intro hh hnone
    unfold cachedBlockStoreExists redisExists
    simp [hh, hnone]
  · intro hh
    unfold cachedBlockStoreExists redisExists
    simp [hh]
  · intro hor
    unfold RedisBlockCacheExists redisExists
    rcases hor with hh | hnone
    · simp [hh]
    · by_cases hh : rs.healthy
      · simp [hh, hnone]
      · simp [hh]

/-- Witness for C6: concrete cache states exercising all three branches. -/
theorem exists_fallthrough_amended_witness :
    cachedBlockStoreExists ⟨[("block:x", [9])], true⟩ [("h", [1])] "h" =
        lbsExists [("h", [1])] "h" ∧
    cachedBlockStoreExists ⟨[], false⟩ [("h", [1])] "h" =
        .error "redis: connection refused" ∧
    RedisBlockCacheExists ⟨[], false⟩ [("h", [1])] "h" = lbsExists [("h", [1])] "h" :=
  ⟨(exists_fallthrough_amended ⟨[("block:x", [9])], true⟩ [("h", [1])] "h").1
      (by decide) (by decide),
   (exists_fallthrough_amended ⟨[], false⟩ [("h", [1])] "h").2.1 (by decide),
   (exists_fallthrough_amended ⟨[], false⟩ [("h", [1])] "h").2.2 (Or.inl (by decide))⟩

/-- C4: the instant-upload check never reports an existing file, because
GetFileNodeByContentHash is a stub that returns nil unconditionally — here
the metadata store holds a file with digest "d", yet check("d") answers
exists=false and mints a fresh session id. -/
theorem checkFileHandler_ignores_store :
    CheckFileHandler
        ⟨[], [("d", ⟨1, "u", "doc.txt", 3, "d", ["k"]⟩)], []⟩ "d" "fresh-session" =
      .notFound "fresh-session" ∧
    mockGetFileByHash [("d", ⟨1, "u", "doc.txt", 3, "d", ["k"]⟩)] "d" =
      some ⟨1, "u", "doc.txt", 3, "d", ["k"]⟩ := by decide

/-- C3: GetMissingChunks reads the total chunk count out of an arbitrary
received-chunk field name, so for a 3-chunk session with chunks 0 and 2
received it returns [] when the map iteration happens to yield chunk:0
first (and [1] only when chunk:2 comes first), while the specified answer
is exactly [1]. -/
theorem getMissingChunks_order_dependent :
    GetMissingChunks [("chunk:0", "received"), ("chunk:2", "received")] = [] ∧
    GetMissingChunks [("chunk:2", "received"), ("chunk:0", "received")] = [1] ∧
    specMissingChunks 3 [0, 2] = [1] := by decide

/-- C2: after uploading the one-byte file [1] (once, and then once more),
the block store holds exactly one physical copy of its block, but no block
metadata row exists at all — UploadFile never creates one, and the mock
repository's IncrementRefCount silently no-ops on the missing row — so no
block carries ref_count n. -/
theorem upload_leaves_no_block_metadata :
    ∃ F st2 F2 st3,
      UploadFile (fun _ => "k") ⟨8192⟩ ⟨[], [], []⟩ "f" [1] = .ok (F, st2) ∧
      st2.blockStore = [("k", [1])] ∧
      st2.blockRows = [] ∧
      UploadFile (fun _ => "k") ⟨8192⟩ st2 "f" [1] = .ok (F2, st3) ∧
      st3.blockStore = [("k", [1])] ∧
      st3.blockRows = [] :=
  ⟨_, _, _, _, rfl, rfl, rfl, rfl, rfl, rfl⟩

/- ===== CDC chunker lemmas ===== -/

theorem scanEnd_ge (c : CDCChunker) (data : Bytes) (pos : Nat) :
    ∀ fuel chunkEnd, chunkEnd ≤ scanEnd c data pos fuel chunkEnd := by
  intro fuel
  induction fuel with
  | zero => intro chunkEnd; exact le_refl _
  | succ fuel ih =>
    intro chunkEnd
    unfold scanEnd
    split_ifs
    · exact le_refl _
    · exact le_trans (Nat.le_succ chunkEnd) (ih (chunkEnd + 1))
    · exact le_refl _

theorem nextChunkEnd_bounds (c : CDCChunker) (data : Bytes) (pos : Nat)
    (hmin : 0 < c.minSize) (hmm : c.minSize ≤ c.maxSize) (hpos : pos < data.length) :
    pos < nextChunkEnd c data pos ∧ nextChunkEnd c data pos ≤ data.length ∧
    nextChunkEnd c data pos ≤ pos + c.maxSize ∧
    (nextChunkEnd c data pos < data.length → pos + c.minSize ≤ nextChunkEnd c data pos) := by
  have he1 := scanEnd_ge c data pos c.maxSize (pos + c.minSize)
  simp only [nextChunkEnd]
  split_ifs <;> omega

theorem cdcSegmentsAux_ne_nil {c : CDCChunker} {data : Bytes} {fuel pos : Nat}
    (h : cdcSegmentsAux c data fuel pos ≠ []) : pos < data.length := by
  cases fuel with
  | zero => simp [cdcSegmentsAux] at h
  | succ fuel =>
    by_cases hpos : pos < data.length
    · exact hpos
    · simp [cdcSegmentsAux, hpos] at h

theorem cdcSegmentsAux_bounds (c : CDCChunker) (data : Bytes)
    (hmin : 0 < c.minSize) (hmm : c.minSize ≤ c.maxSize) :
    ∀ fuel pos pre s post, cdcSegmentsAux c data fuel pos = pre ++ s :: post →
      1 ≤ s.length ∧ s.length ≤ c.maxSize ∧ (post ≠ [] → c.minSize ≤ s.length) := by
  intro fuel
  induction fuel with
  | zero =>
    intro pos pre s post h
    simp only [cdcSegmentsAux] at h
    exact absurd h.symm (List.append_ne_nil_of_right_ne_nil pre (List.cons_ne_nil s post))
  | succ fuel ih =>
    intro pos pre s post h
    by_cases hpos : pos < data.length
    · have hb := nextChunkEnd_bounds c data pos hmin hmm hpos
      simp only [cdcSegmentsAux, if_pos hpos] at h
      have hseglen : ((data.drop pos).take (nextChunkEnd c data pos - pos)).length =
          nextChunkEnd c data pos - pos := by
        rw [List.length_take, List.length_drop]
        omega
      cases pre with
      | nil =>
        simp only [List.nil_append] at h
        injection h with h1 h2
        subst h1
        refine ⟨by rw [hseglen]; omega, by rw [hseglen]; omega, ?_⟩
        intro hpost
        rw [← h2] at hpost
        have hlt := cdcSegmentsAux_ne_nil hpost
        rw [hseglen]
        have := hb.2.2.2 hlt
        omega
      | cons a pre' =>
        simp only [List.cons_append] at h
        injection h with h1 h2
        exact ih (nextChunkEnd c data pos) pre' s post h2
    · simp only [cdcSegmentsAux, if_neg hpos] at h
      exact absurd h.symm (List.append_ne_nil_of_right_ne_nil pre (List.cons_ne_nil s post))

theorem cdcSegmentsAux_join (c : CDCChunker) (data : Bytes)
    (hmin : 0 < c.minSize) (hmm : c.minSize ≤ c.maxSize) :
    ∀ fuel pos, data.length - pos ≤ fuel →
      (cdcSegmentsAux c data fuel pos).flatten = data.drop pos := by
  intro fuel
  induction fuel with
  | zero =>
    intro pos hle
    have hge : data.length ≤ pos := by omega
    simp [cdcSegmentsAux, List.drop_eq_nil_of_le hge]
  | succ fuel ih =>
    intro pos hle
    by_cases hpos : pos < data.length
    · have hb := nextChunkEnd_bounds c data pos hmin hmm hpos
      simp only [cdcSegmentsAux, if_pos hpos, List.flatten_cons]
      rw [ih (nextChunkEnd c data pos) (by omega)]
      have hdd : data.drop (nextChunkEnd c data pos) =
          (data.drop pos).drop (nextChunkEnd c data pos - pos) := by
        rw [List.drop_drop]
        congr 1
        omega
      rw [hdd, List.take_append_drop]
    · have hge : data.length ≤ pos := by omega
      simp [cdcSegmentsAux, hpos, List.drop_eq_nil_of_le hge]

/-- C8 counterexample: the chunker built by NewCDCChunker 2 3 4 keeps
min = 2, yet chunking the one-byte input [0] emits a single block of
length 1 — below min, refuting "every emitted block length is in
[min, max]". -/
theorem cdc_short_final_block :
    (cdcChunkSegments (NewCDCChunker 2 3 4) [0]).map List.length = [1] ∧
    ¬ (∀ s ∈ cdcChunkSegments (NewCDCChunker 2 3 4) [0],
        (NewCDCChunker 2 3 4).minSize ≤ s.length) := by decide

/-- C8 (corrected): for a CDC chunker with 0 < min ≤ max, every emitted
block is non-empty and at most max bytes long, and every block except
possibly the final one is at least min bytes long; the final block may be
shorter than min when fewer than min bytes remain. -/
theorem cdc_length_bounds_amended (c : CDCChunker) (data : Bytes)
    (hmin : 0 < c.minSize) (hmm : c.minSize ≤ c.maxSize) :
    ∀ pre s post, cdcChunkSegments c data = pre ++ s :: post →
      1 ≤ s.length ∧ s.length ≤ c.maxSize ∧ (post ≠ [] → c.minSize ≤ s.length) :=
  fun pre s post h =>
    cdcSegmentsAux_bounds c data hmin hmm data.length 0 pre s post h

/-- Witness for C8: NewCDCChunker 2 3 4 on the five-byte input cuts
blocks [0,0] and [0,0,0]; the non-final block [0,0] satisfies both
bounds. -/
theorem cdc_length_bounds_amended_witness :
    1 ≤ ([0, 0] : Bytes).length ∧
    ([0, 0] : Bytes).length ≤ (NewCDCChunker 2 3 4).maxSize ∧
    ([[0, 0, 0]] ≠ ([] : List Bytes) → (NewCDCChunker 2 3 4).minSize ≤ ([0, 0] : Bytes).length) :=
  cdc_length_bounds_amended (NewCDCChunker 2 3 4) [0, 0, 0, 0, 0]
    (by decide) (by decide) [] [0, 0] [[0, 0, 0]] (by decide)

/-- C10: every chunker NewCDCChunker returns satisfies
0 < min < avg < max (non-positive or non-increasing parameter triples are
replaced by the defaults 2048/8192/65536), every iteration of Chunk
strictly advances the position while staying inside the input, and the
loop consumes the whole input — the emitted blocks concatenate back to it,
so Chunk terminates on every input. -/
theorem cdc_constructor_and_progress (a b m : Int) :
    (0 < (NewCDCChunker a b m).minSize ∧
     (NewCDCChunker a b m).minSize < (NewCDCChunker a b m).avgSize ∧
     (NewCDCChunker a b m).avgSize < (NewCDCChunker a b m).maxSize) ∧
    NewCDCChunker 0 (-3) 0 = ⟨2048, 8192, 65536, 64⟩ ∧
    (∀ data pos, pos < data.length →
      pos < nextChunkEnd (NewCDCChunker a b m) data pos ∧
      nextChunkEnd (NewCDCChunker a b m) data pos ≤ data.length) ∧
    (∀ data : Bytes, (cdcChunkSegments (NewCDCChunker a b m) data).flatten = data) := by
  have hc : 0 < (NewCDCChunker a b m).minSize ∧
      (NewCDCChunker a b m).minSize < (NewCDCChunker a b m).avgSize ∧
      (NewCDCChunker a b m).avgSize < (NewCDCChunker a b m).maxSize := by
    simp only [NewCDCChunker]
    split_ifs <;> (refine ⟨?_, ?_, ?_⟩ <;> simp <;> omega)
  have hmm : (NewCDCChunker a b m).minSize ≤ (NewCDCChunker a b m).maxSize := by omega
  refine ⟨hc, by decide, ?_, ?_⟩
  · intro data pos hpos
    have hb := nextChunkEnd_bounds (NewCDCChunker a b m) data pos hc.1 hmm hpos
    exact ⟨hb.1, hb.2.1⟩
  · intro data
    have := cdcSegmentsAux_join (NewCDCChunker a b m) data hc.1 hmm data.length 0 (by omega)
    simpa using this

/-- Witness for C10: the progress bound evaluated for the chunker built
from (2, 3, 4) on a concrete three-byte input at position 0. -/
theorem cdc_constructor_and_progress_witness :
    0 < nextChunkEnd (NewCDCChunker 2 3 4) [7, 7, 7] 0 ∧
    nextChunkEnd (NewCDCChunker 2 3 4) [7, 7, 7] 0 ≤ ([7, 7, 7] : Bytes).length :=
  (cdc_constructor_and_progress 2 3 4).2.2.1 [7, 7, 7] 0 (by decide)

/- ===== DeleteFile lemmas ===== -/

theorem decF_hash (r : Block) :
    ((fun x => if x.refCount > 0 then { x with refCount := x.refCount - 1 } else x) r).hash
      = r.hash := by
  dsimp only
  split <;> rfl

theorem decBlocksLoop_refCount (L : List String) :
    ∀ rows h r, findRow rows h = some r → (countH L h : Int) ≤ r.refCount →
      refCountOf (decBlocksLoop rows L) h = some (r.refCount - countH L h) := by
  induction L with
  | nil =>
    intro rows h r hfind hle
    simp [decBlocksLoop, refCountOf, hfind, countH]
  | cons h0 t ih =>
    intro rows h r hfind hle
    by_cases hh : h0 = h
    · subst hh
      have hcount : countH (h0 :: t) h0 = 1 + countH t h0 := by simp [countH]
      have hpos : r.refCount > 0 := by
        rw [hcount] at hle
        push_cast at hle
        omega
      simp only [decBlocksLoop, gormDecrementBlockRefCount, hfind]
      have hfind' : findRow (updateFirstRow rows h0
          (fun x => if x.refCount > 0 then { x with refCount := x.refCount - 1 } else x)) h0
          = some { r with refCount := r.refCount - 1 } := by
        rw [findRow_updateFirstRow_self _ _ _ decF_hash, hfind]
        simp [hpos]
      rw [ih _ h0 _ hfind' (by
        show (countH t h0 : Int) ≤ r.refCount - 1
        rw [hcount] at hle
        push_cast at hle
        omega)]
      congr 1
      rw [hcount]
      push_cast
      ring
    · have hcount : countH (h0 :: t) h = countH t h := by simp [countH, hh]
      cases hfind0 : findRow rows h0 with
      | none =>
        simp only [decBlocksLoop, gormDecrementBlockRefCount, hfind0]
        rw [ih rows h r hfind (by rw [hcount] at hle; exact hle), hcount]
      | some r0 =>
        simp only [decBlocksLoop, gormDecrementBlockRefCount, hfind0]
        have hfind' : findRow (updateFirstRow rows h0
            (fun x => if x.refCount > 0 then { x with refCount := x.refCount - 1 } else x)) h
            = some r := by
          rw [findRow_updateFirstRow_ne _ _ _ _ decF_hash (Ne.symm hh)]
          exact hfind
        rw [ih _ h r hfind' (by rw [hcount] at hle; exact hle), hcount]

theorem decBlocksLoop_none (L : List String) :
    ∀ rows h, findRow rows h = none → findRow (decBlocksLoop rows L) h = none := by
  induction L with
  | nil =>
    intro rows h hfind
    simpa [decBlocksLoop] using hfind
  | cons h0 t ih =>
    intro rows h hfind
    by_cases hh : h0 = h
    · subst hh
      simp only [decBlocksLoop, gormDecrementBlockRefCount, hfind]
      exact ih rows h0 hfind
    · cases hfind0 : findRow rows h0 with
      | none =>
        simp only [decBlocksLoop, gormDecrementBlockRefCount, hfind0]
        exact ih rows h hfind
      | some r0 =>
        simp only [decBlocksLoop, gormDecrementBlockRefCount, hfind0]
        refine ih _ h ?_
        rw [findRow_updateFirstRow_ne _ _ _ _ decF_hash (Ne.symm hh)]
        exact hfind

/-- C9: DeleteFile on a stored file F leaves the block store untouched
(it never calls the block store's Delete — the state it returns carries
the block store through unchanged), removes F's file row, and applies the
clamped ref-count decrement once per entry of F's block list: a row whose
count covers the multiplicity drops by exactly that multiplicity, and a
digest without a metadata row stays without one. -/
theorem deleteFile_frames_block_store (st : GormState) (F : File)
    (hfind : findFile st.files F.hash = some F) :
    ∃ st', DeleteFile st F.hash = .ok st' ∧
      st'.blockStore = st.blockStore ∧
      st'.files = st.files.filter (fun g => g.id ≠ F.id) ∧
      (∀ h r, findRow st.blockRows h = some r → (countH F.blockIDs h : Int) ≤ r.refCount →
        refCountOf st'.blockRows h = some (r.refCount - countH F.blockIDs h)) ∧
      (∀ h, findRow st.blockRows h = none → findRow st'.blockRows h = none) := by
  refine ⟨{ st with
            blockRows := decBlocksLoop st.blockRows F.blockIDs
            files := st.files.filter (fun g => g.id ≠ F.id) }, ?_, rfl, rfl, ?_, ?_⟩
  · unfold DeleteFile
    rw [hfind]
  · intro h r hr hle
    exact decBlocksLoop_refCount F.blockIDs st.blockRows h r hr hle
  · intro h hr
    exact decBlocksLoop_none F.blockIDs st.blockRows h hr

/-- Witness for C9: deleting the file with block list ["a", "a", "b"] from
a concrete state — block "a" (count 2, multiplicity 2) and "b" (count 5,
multiplicity 1) are decremented, the file row disappears, and the block
store keeps its payloads. -/
theorem deleteFile_frames_block_store_witness :
    ∃ st', DeleteFile
        ⟨[("a", [1])],
         [⟨1, "u", "n", 3, "hf", ["a", "a", "b"]⟩],
         [⟨1, "a", 1, [1], 2⟩, ⟨2, "b", 1, [2], 5⟩]⟩ "hf" = .ok st' ∧
      st'.blockStore = [("a", [1])] ∧
      st'.files = [] ∧
      (∀ h r, findRow [⟨1, "a", 1, [1], 2⟩, ⟨2, "b", 1, [2], 5⟩] h = some r →
        (countH ["a", "a", "b"] h : Int) ≤ r.refCount →
        refCountOf st'.blockRows h = some (r.refCount - countH ["a", "a", "b"] h)) ∧
      (∀ h, findRow [⟨1, "a", 1, [1], 2⟩, ⟨2, "b", 1, [2], 5⟩] h = none →
        findRow st'.blockRows h = none) :=
  deleteFile_frames_block_store
    ⟨[("a", [1])],
     [⟨1, "u", "n", 3, "hf", ["a", "a", "b"]⟩],
     [⟨1, "a", 1, [1], 2⟩, ⟨2, "b", 1, [2], 5⟩]⟩
    ⟨1, "u", "n", 3, "hf", ["a", "a", "b"]⟩ (by decide)

/- ===== Fixed-size segmentation lemmas and the upload/download round trip ===== -/

theorem fixedSegmentsAux_fuel_eq (bs : Nat) (hbs : 0 < bs) :
    ∀ fuel1 fuel2 data, data.length ≤ fuel1 → data.length ≤ fuel2 →
      fixedSegmentsAux bs fuel1 data = fixedSegmentsAux bs fuel2 data := by
  intro fuel1
  induction fuel1 with
  | zero =>
    intro fuel2 data h1 h2
    have hd : data = [] := List.eq_nil_of_length_eq_zero (by omega)
    subst hd
    cases fuel2 <;> simp [fixedSegmentsAux]
  | succ fuel1 ih =>
    intro fuel2 data h1 h2
    cases fuel2 with
    | zero =>
      have hd : data = [] := List.eq_nil_of_length_eq_zero (by omega)
      subst hd
      simp [fixedSegmentsAux]
    | succ fuel2 =>
      by_cases hd : data.isEmpty = true
      · simp [fixedSegmentsAux, hd]
      · have hpos : 0 < data.length := by cases data <;> simp_all
        simp only [fixedSegmentsAux, hd, Bool.false_eq_true, if_false]
        congr 1
        exact ih fuel2 (data.drop bs) (by rw [List.length_drop]; omega)
          (by rw [List.length_drop]; omega)

theorem fixedSegments_cons (bs : Nat) (hbs : 0 < bs) (data : Bytes) (hne : data ≠ []) :
    fixedSegments bs data = data.take bs :: fixedSegments bs (data.drop bs) := by
  unfold fixedSegments
  have hpos : 0 < data.length := List.length_pos.mpr hne
  obtain ⟨n, hn⟩ : ∃ n, data.length = n + 1 := ⟨data.length - 1, by omega⟩
  rw [hn]
  have hd : data.isEmpty = false := by cases data <;> simp_all
  simp only [fixedSegmentsAux, hd, Bool.false_eq_true, if_false]
  congr 1
  exact fixedSegmentsAux_fuel_eq bs hbs n (data.drop bs).length (data.drop bs)
    (by rw [List.length_drop]; omega) (le_refl _)

theorem fixedSegmentsAux_flatten (bs : Nat) (hbs : 0 < bs) :
    ∀ fuel data, data.length ≤ fuel → (fixedSegmentsAux bs fuel data).flatten = data := by
  intro fuel
  induction fuel with
  | zero =>
    intro data h
    have hd : data = [] := List.eq_nil_of_length_eq_zero (by omega)
    subst hd
    simp [fixedSegmentsAux]
  | succ fuel ih =>
    intro data h
    by_cases hd : data.isEmpty = true
    · have : data = [] := by cases data <;> simp_all
      subst this
      simp [fixedSegmentsAux]
    · have hpos : 0 < data.length := by cases data <;> simp_all
      simp only [fixedSegmentsAux, hd, Bool.false_eq_true, if_false, List.flatten_cons]
      rw [ih (data.drop bs) (by rw [List.length_drop]; omega)]
      exact List.take_append_drop bs data

theorem fixedSegments_flatten (bs : Nat) (hbs : 0 < bs) (data : Bytes) :
    (fixedSegments bs data).flatten = data :=
  fixedSegmentsAux_flatten bs hbs data.length data (le_refl _)

theorem getBlocksData_spec (H : Bytes → String) (store : Store) :
    ∀ segs : List Bytes, (∀ ch ∈ segs, lookupK store (H ch) = some ch) →
      getBlocksData store (segs.map H) = .ok segs.flatten := by
  intro segs
  induction segs with
  | nil => intro _; rfl
  | cons ch t ih =>
    intro hall
    have hch := hall ch (List.mem_cons_self ch t)
    simp only [List.map_cons, getBlocksData, lbsGet, hch]
    rw [ih (fun c hc => hall c (List.mem_cons_of_mem ch hc))]
    simp [List.flatten_cons]

theorem uploadLoopAux_spec (H : Bytes → String) (bs : Nat) (hbs : 0 < bs) :
    ∀ fuel rest st, rest.length ≤ fuel →
      ∃ st', uploadLoopAux H bs fuel st rest =
          .ok (st', (fixedSegments bs rest).map H) ∧
        st'.files = st.files ∧
        (∀ k, (∀ ch ∈ fixedSegments bs rest, H ch ≠ k) →
          lookupK st'.blockStore k = lookupK st.blockStore k) ∧
        ((∀ c1 ∈ fixedSegments bs rest, ∀ c2 ∈ fixedSegments bs rest, H c1 = H c2 → c1 = c2) →
          ∀ ch ∈ fixedSegments bs rest, lookupK st'.blockStore (H ch) = some ch) := by
  intro fuel
  induction fuel with
  | zero =>
    intro rest st hle
    have hd : rest = [] := List.eq_nil_of_length_eq_zero (by omega)
    subst hd
    exact ⟨st, rfl, rfl, fun k _ => rfl,
      fun _ ch hch => absurd hch (by simp [fixedSegments, fixedSegmentsAux])⟩
  | succ fuel ih =>
    intro rest st hle
    by_cases hre : rest.isEmpty = true
    · have hd : rest = [] := List.isEmpty_iff.mp hre
      subst hd
      exact ⟨st, rfl, rfl, fun k _ => rfl,
        fun _ ch hch => absurd hch (by simp [fixedSegments, fixedSegmentsAux])⟩
    · have hrne : rest ≠ [] := by
        intro hd
        rw [hd] at hre
        exact hre rfl
      have hrpos : 0 < rest.length := List.length_pos.mpr hrne
      have hchunk_ne : (rest.take bs).isEmpty = false := by
        cases rest with
        | nil => exact absurd rfl hrne
        | cons a t => cases bs with
          | zero => omega
          | succ n => rfl
      have hcons := fixedSegments_cons bs hbs rest hrne
      have hdroplen : (rest.drop bs).length ≤ fuel := by
        rw [List.length_drop]
        omega
      obtain ⟨st2, hloop, hfiles, hframe, hcorr⟩ := ih (rest.drop bs)
        { st with
          blockStore := setk st.blockStore (H (rest.take bs)) (rest.take bs)
          blockRows := mockIncrementRefCount st.blockRows (H (rest.take bs)) 1 } hdroplen
      refine ⟨st2, ?_, ?_, ?_, ?_⟩
      · simp only [uploadLoopAux, hre, Bool.false_eq_true, if_false, lbsPut, hchunk_ne,
          hloop, hcons, List.map_cons]
      · rw [hfiles]
      · intro k hk
        rw [hframe k (fun ch hch => hk ch (by rw [hcons]; exact List.mem_cons_of_mem _ hch))]
        exact lookupK_setk_ne st.blockStore (H (rest.take bs)) k (rest.take bs)
          (Ne.symm (hk (rest.take bs) (by rw [hcons]; exact List.mem_cons_self _ _)))
      · intro hinj ch hch
        have hinj' : ∀ c1 ∈ fixedSegments bs (rest.drop bs),
            ∀ c2 ∈ fixedSegments bs (rest.drop bs), H c1 = H c2 → c1 = c2 := by
          intro c1 h1 c2 h2
          exact hinj c1 (by rw [hcons]; exact List.mem_cons_of_mem _ h1)
            c2 (by rw [hcons]; exact List.mem_cons_of_mem _ h2)
        rw [hcons] at hch
        rcases List.mem_cons.mp hch with hch | hch
        · subst hch
          by_cases hex : ∃ c' ∈ fixedSegments bs (rest.drop bs), H c' = H (rest.take bs)
          · obtain ⟨c', hc', he⟩ := hex
            have heq : c' = rest.take bs :=
              hinj c' (by rw [hcons]; exact List.mem_cons_of_mem _ hc')
                (rest.take bs) (by rw [hcons]; exact List.mem_cons_self _ _) he
            have hl := hcorr hinj' c' hc'
            rw [he, heq] at hl
            exact hl
          · push_neg at hex
            rw [hframe (H (rest.take bs)) (fun c hc => hex c hc)]
            exact lookupK_setk_self st.blockStore (H (rest.take bs)) (rest.take bs)
        · exact hcorr hinj' ch hch

/-- C1: round-trip at the service facade — whenever UploadFile on a byte
sequence succeeds with file record F and state st', DownloadFile st' F.Hash
reads the stored blocks back in order and their concatenation is exactly
the input.  The digest function only needs to be collision-free on the
chunks of this input (the SHA-256 assumption). -/
theorem upload_download_roundtrip (H : Bytes → String) (c : FixedSizeChunker)
    (st : SysState) (fileName : String) (data : Bytes) (F : File) (st' : SysState)
    (hbs : 0 < c.blockSize)
    (hinj : ∀ c1 ∈ fixedSegments c.blockSize data, ∀ c2 ∈ fixedSegments c.blockSize data,
      H c1 = H c2 → c1 = c2)
    (hup : UploadFile H c st fileName data = .ok (F, st')) :
    DownloadFile st' F.hash = .ok data := by
  obtain ⟨st1, hloop, hfiles, hframe, hcorr⟩ :=
    uploadLoopAux_spec H c.blockSize hbs data.length data st (le_refl _)
  by_cases hde : data.isEmpty = true
  · simp only [UploadFile, hde, if_true] at hup
    exact Except.noConfusion hup
  · simp only [UploadFile, hde, Bool.false_eq_true, if_false, hloop,
      Except.ok.injEq, Prod.mk.injEq] at hup
    obtain ⟨hF, hst⟩ := hup
    subst hF
    subst hst
    simp only [DownloadFile, mockGetFileByHash, mockCreateFile, lookupK_setk_self]
    rw [getBlocksData_spec H st1.blockStore (fixedSegments c.blockSize data) (hcorr hinj)]
    rw [fixedSegments_flatten c.blockSize hbs data]

/-- Witness for C1: uploading [1, 2, 3] into the empty state with block
size 8192 yields the file record with hash "hash_3" and block list ["k"],
and downloading that hash returns [1, 2, 3]. -/
theorem upload_download_roundtrip_witness :
    DownloadFile
        ⟨[("k", [1, 2, 3])], [("hash_3", ⟨0, "", "f", 3, "hash_3", ["k"]⟩)], []⟩
        (File.hash ⟨0, "", "f", 3, "hash_3", ["k"]⟩) = .ok [1, 2, 3] :=
  upload_download_roundtrip (fun _ => "k") ⟨8192⟩ ⟨[], [], []⟩ "f" [1, 2, 3]
    ⟨0, "", "f", 3, "hash_3", ["k"]⟩
    ⟨[("k", [1, 2, 3])], [("hash_3", ⟨0, "", "f", 3, "hash_3", ["k"]⟩)], []⟩
    (by decide)
    (by
      have hseg : fixedSegments (FixedSizeChunker.blockSize ⟨8192⟩) [1, 2, 3] = [[1, 2, 3]] := rfl
      intro c1 h1 c2 h2 _
      rw [hseg] at h1 h2
      simp only [List.mem_singleton] at h1 h2
      rw [h1, h2])
    rfl

end SealockDoc
